import Mathlib

set_option autoImplicit false

/-!
Verification of the interaction-log management of the openai-cua-sample-app
agent (src/agent/agent.py, src/utils.py, src/computers/shared/base_playwright.py).

Log items are Python dicts; we model the fields the code reads.  Python object
identity (`id(i)`, `is`) and dict equality (`==`, `in`, `.index`) are both
modelled by structural equality of `Item`: in the agent's logs items are
created once and are pairwise distinct, so the two notions coincide.
-/

/-- An interaction-log item: the fields of the Python dicts that the agent
reads.  `outType` is the `"type"` field of the nested `"output"` dict of a
`computer_call_output` (where screenshots live); `tag` distinguishes items
that agree on all modelled fields. -/
structure Item where
  type : String
  role : Option String := none
  callId : Option String := none
  id : Option String := none
  outType : Option String := none
  outStr : Option String := none
  tag : Nat := 0
deriving DecidableEq

/-- Python slicing `l[-k:]`.  For `k = 0` Python yields the whole list. -/
def pySuffix (k : Nat) (l : List Item) : List Item :=
  if k = 0 then l else l.drop (l.length - k)

/-- Python slicing `l[:-k]`.  For `k = 0` Python yields the empty list. -/
def pyButLast (k : Nat) (l : List Item) : List Item :=
  if k = 0 then [] else l.take (l.length - k)

/-- Python `list.insert i x` (an index past the end appends, as in Python). -/
def pyInsert (i : Nat) (x : Item) (l : List Item) : List Item :=
  l.take i ++ x :: l.drop i

/-- Python `list.pop i` for a valid index `i`. -/
def pyPop (i : Nat) (l : List Item) : List Item :=
  l.take i ++ l.drop (i + 1)

/-- Python `list.index x`: index of the first element equal to `x`. -/
def pyIndex (x : Item) : List Item → Nat
  | [] => 0
  | a :: t => if a = x then 0 else pyIndex x t + 1

/-- The most recent user message of the log:
`next((it for it in reversed(all_items) if it.get("type") == "message" and
it.get("role") == "user"), None)` in `_compact_base` (src/agent/agent.py:55-59). -/
def lastUserMessage (all_items : List Item) : Option Item :=
  all_items.reverse.find? (fun it => decide (it.type = "message" ∧ it.role = some "user"))

/-- The "ensure latest user message is present" block of `_compact_base`
(src/agent/agent.py:54-61): prepend the latest user message when it is not in
the tail. -/
def withLastUser (all_items tail : List Item) : List Item :=
  match lastUserMessage all_items with
  | some u => if u ∈ tail then tail else u :: tail
  | none => tail

/-- The "keep only most recent K screenshots" block of `_compact_base`
(src/agent/agent.py:63-67): when more than `keep_images` items have top-level
type `"input_image"`, drop all but the last `keep_images` of them. -/
def imageTrim (keep_images : Nat) (tail : List Item) : List Item :=
  let imgs := tail.filter (fun i => decide (i.type = "input_image"))
  if imgs.length > keep_images then
    tail.filter (fun i => decide (i ∉ pyButLast keep_images imgs))
  else tail

/-- Shallow embedding of `_compact_base` (src/agent/agent.py:43-69): keep the
last `keep_tail` items, prepend the latest user message when it is not in the
tail, then drop all but the most recent `keep_images` items whose top-level
`"type"` is `"input_image"`. -/
def compact_base (all_items : List Item) (keep_images keep_tail : Nat) : List Item :=
  if all_items = [] then []
  else imageTrim keep_images (withLastUser all_items (pySuffix keep_tail all_items))

/-- Python truthiness of an optional string field (`if o.get("call_id")`):
`None` and the empty string are falsy. -/
def truthy : Option String → Bool
  | none => false
  | some s => decide (s ≠ "")

/-- The adjacency pairs collected by `_pair_reasoning_calls`
(src/agent/agent.py:21-40): a `reasoning` item immediately followed by a
`computer_call`, recorded under the call's `call_id` when both the `call_id`
and the reasoning `id` are truthy. -/
def pairList : List Item → List (String × Item)
  | it :: nxt :: rest =>
    (if it.type = "reasoning" ∧ nxt.type = "computer_call" ∧
        truthy nxt.callId = true ∧ truthy it.id = true then
      [(nxt.callId.getD "", it)]
    else []) ++ pairList (nxt :: rest)
  | _ => []

/-- Lookup in the dict `callid_to_reasoning` built by `_pair_reasoning_calls`:
later assignments overwrite earlier ones, so the last adjacency pair for a
`call_id` wins; keys are truthy strings, so `get(None)` misses. -/
def callidToReasoning (all_items : List Item) (cid : Option String) : Option Item :=
  match cid with
  | none => none
  | some s => ((pairList all_items).reverse.find? (fun p => decide (p.1 = s))).map (fun p => p.2)

/-- The truthy `call_id`s referenced by `computer_call_output` items of the
request (`needed` in `_enforce_cua_via_pairs`, src/agent/agent.py:85-86). -/
def neededIds (request : List Item) : List String :=
  ((request.filter (fun i => decide (i.type = "computer_call_output"))).filterMap Item.callId).filter
    (fun s => decide (s ≠ ""))

/-- The `call_id`s of `computer_call` items of the request (`have` in
`_enforce_cua_via_pairs`, src/agent/agent.py:87). -/
def haveIds (request : List Item) : List (Option String) :=
  (request.filter (fun i => decide (i.type = "computer_call"))).map Item.callId

/-- `needed - have` (src/agent/agent.py:89-90), fixed before the insertion
loop of step 1 runs. -/
def missingIds (request : List Item) : List String :=
  (neededIds request).filter (fun s => decide (some s ∉ haveIds request))

/-- Index of the first `computer_call_output` with the given `call_id`
(`first_out_idx` in src/agent/agent.py:94-98); the length of the request when
there is none, matching the Python generator's `len(request)` default. -/
def firstOutIdx (request : List Item) (cid : Option String) : Nat :=
  request.findIdx (fun r => decide (r.type = "computer_call_output" ∧ r.callId = cid))

/-- One step of the insertion loop of step 1 of `_enforce_cua_via_pairs`
(src/agent/agent.py:91-99): a `computer_call` of the full history whose
`call_id` is in `missing` is inserted directly before the first output of the
request that references it. -/
def step1Insert (request req : List Item) (it : Item) : List Item :=
  if decide (it.type = "computer_call") &&
      (match it.callId with
       | some s => decide (s ∈ missingIds request)
       | none => false) then
    pyInsert (firstOutIdx req it.callId) it req
  else req

/-- The guarded insertion fold of step 1 (src/agent/agent.py:89-99): `missing`
is computed once, then every `computer_call` of the full history whose id is
missing is inserted before the first output that references it. -/
def enforceStep1 (all_items request : List Item) : List Item :=
  if (missingIds request).isEmpty then request
  else all_items.foldl (step1Insert request) request

/-- Step 2 of `_enforce_cua_via_pairs` (src/agent/agent.py:101-118), the
`while i < len(request)` loop: before each `computer_call` whose `call_id` has
a recorded adjacent reasoning, insert that reasoning (if absent) or move it
(if not at position `i - 1`; Python compares against the possibly negative
`i - 1`, modelled as `ridx + 1 ≠ i`).  The loop advances `i` by one, plus one
more after an insertion or a move.  `fuel` bounds the recursion; it is called
with `request.length`, which dominates the loop's variant `len(request) - i`
(the variant starts at the initial length and strictly decreases at every
iteration), so the fuel never runs out before the loop's own exit. -/
def enforceStep2go (lookup : Option String → Option Item) :
    Nat → List Item → Nat → List Item
  | 0, req, _ => req
  | fuel + 1, req, i =>
    if _h : i < req.length then
      if (req.get ⟨i, _h⟩).type = "computer_call" then
        match lookup (req.get ⟨i, _h⟩).callId with
        | some r =>
          if r ∈ req then
            if pyIndex r req + 1 ≠ i then
              enforceStep2go lookup fuel (pyInsert i r (pyPop (pyIndex r req) req)) (i + 2)
            else enforceStep2go lookup fuel req (i + 1)
          else enforceStep2go lookup fuel (pyInsert i r req) (i + 2)
        | none => enforceStep2go lookup fuel req (i + 1)
      else enforceStep2go lookup fuel req (i + 1)
    else req

/-- Step 2 of `_enforce_cua_via_pairs`, entered at `i = 0`. -/
def enforceStep2 (lookup : Option String → Option Item) (request : List Item) : List Item :=
  enforceStep2go lookup request.length request 0

/-- Step 3 of `_enforce_cua_via_pairs` (src/agent/agent.py:120-131): drop
every `reasoning` item that is not immediately followed by a `computer_call`. -/
def enforceStep3 : List Item → List Item
  | [] => []
  | it :: rest =>
    if decide (it.type = "reasoning") &&
        !(match rest with
          | nxt :: _ => decide (nxt.type = "computer_call")
          | [] => false) then
      enforceStep3 rest
    else it :: enforceStep3 rest

/-- Shallow embedding of `_enforce_cua_via_pairs` (src/agent/agent.py:72-133):
pairing repair, adjacency insertion, then orphan elimination. -/
def enforce_cua_via_pairs (all_items request : List Item) : List Item :=
  if request = [] then []
  else
    enforceStep3
      (enforceStep2 (callidToReasoning all_items) (enforceStep1 all_items request))

/-- Shallow embedding of `_force_include_reasoning_and_call`
(src/agent/agent.py:136-172): when the service names a missing reasoning id,
force that reasoning and the next `computer_call` after it in the full history
into the request, directly before any output referencing that call. -/
def force_include_reasoning_and_call (all_items request : List Item) (rs_id : String) :
    List Item :=
  if rs_id = "" then request
  else
    match all_items.find? (fun it => decide (it.type = "reasoning" ∧ it.id = some rs_id)) with
    | none => request
    | some rs_item =>
      let rs_idx := pyIndex rs_item all_items
      match (all_items.drop (rs_idx + 1)).find? (fun it => decide (it.type = "computer_call")) with
      | none => request
      | some call_item =>
        let request' := request.filter (fun it => decide (it ≠ rs_item ∧ it ≠ call_item))
        let idx := firstOutIdx request' call_item.callId
        request'.take idx ++ rs_item :: call_item :: request'.drop idx

/-- A user message, as produced by the CLI layer. -/
def uMsg : Item := { type := "message", role := some "user" }

/-- A reasoning item with truthy id `r1`. -/
def rItem : Item := { type := "reasoning", id := some "r1" }

/-- An assistant message used as a neutral filler item. -/
def aMsg : Item := { type := "message", role := some "assistant", tag := 5 }

/-- A `computer_call` with the given `call_id`. -/
def callI (c : String) : Item := { type := "computer_call", callId := some c }

/-- A `computer_call_output` with the given `call_id` and no screenshot. -/
def outI (c : String) : Item := { type := "computer_call_output", callId := some c }

/-- A `computer_call_output` carrying a screenshot: its `"output"` field is an
`input_image` payload, exactly as built by `Agent.handle_item`
(src/agent/agent.py:624-637). -/
def outImg (c : String) : Item :=
  { type := "computer_call_output", callId := some c, outType := some "input_image" }

/-- The url blocklist `BLOCKED_DOMAINS` (src/utils.py:13-20). -/
def BLOCKED_DOMAINS : List String :=
  ["maliciousbook.com", "evilvideos.com", "darkwebforum.com",
   "shadytok.com", "suspiciouspins.com", "ilanbigio.com"]

/-- Python `s.endswith(suf)`. -/
def pyEndsWith (s suf : String) : Bool :=
  suf.data.isSuffixOf s.data

/-- Shallow embedding of `check_blocklisted_url` (src/utils.py:200-207) as a
function of the hostname parsed from the url.  `urlparse` is Python standard
library, external to this repository, so the embedding takes
`urlparse(url).hostname` (`none` when the url has no hostname) as its input;
`hostname or ""` maps a missing hostname to the empty string.  Raising
`ValueError` is modelled as `Except.error`. -/
def check_blocklisted_url (hostname : Option String) : Except String Unit :=
  if BLOCKED_DOMAINS.any (fun blocked =>
      hostname.getD "" == blocked || pyEndsWith (hostname.getD "") ("." ++ blocked)) then
    Except.error ("Blocked URL host: " ++ hostname.getD "")
  else Except.ok ()

/-- The 1x1 transparent PNG fallback `_BLANK_PNG_B64`
(src/computers/shared/base_playwright.py:40-43). -/
def BLANK_PNG_B64 : String :=
  "iVBORw0KGgoAAAANSUhEUgAAAAEAAAABCAQAAAC1HAwCAAAAC0lEQVR4nGNgYAAAAAMAASsJTYQAAAAASUVORK5CYII="

/-- Environment of one `BasePlaywrightComputer.screenshot` invocation
(src/computers/shared/base_playwright.py:759-780): the outcomes of the
Playwright-facing helpers it calls.  `append_to_video` is total because
`_append_to_video` swallows every exception internally (lines 734-757,
`except Exception: pass`); the other helpers may raise, modelled as
`Except.error`.  `b64encode`/`b64decode` are Python standard library,
external to this repository, kept abstract. -/
structure ScreenshotEnv where
  ensure_active_page : Except String Unit
  update_timestamp_dom : Except String Unit
  page_screenshot : Except String String
  append_to_video : String → Unit
  stitch_sleep_ms : Nat
  stitch_sleep : Except String Unit
  b64encode : String → String
  b64decode : String → String

/-- The `try` block of `screenshot`
(src/computers/shared/base_playwright.py:766-773): any failure among the
helper calls aborts the block with that error. -/
def screenshotAttempt (env : ScreenshotEnv) : Except String String :=
  match env.ensure_active_page with
  | Except.error e => Except.error e
  | Except.ok _ =>
    match env.update_timestamp_dom with
    | Except.error e => Except.error e
    | Except.ok _ =>
      match env.page_screenshot with
      | Except.error e => Except.error e
      | Except.ok png =>
        let _ := env.append_to_video png
        match (if env.stitch_sleep_ms > 0 then env.stitch_sleep else Except.ok ()) with
        | Except.error e => Except.error e
        | Except.ok _ => Except.ok (env.b64encode png)

/-- Shallow embedding of `BasePlaywrightComputer.screenshot`
(src/computers/shared/base_playwright.py:759-780): run the `try` block; on
any failure, best-effort append a blank frame and return `_BLANK_PNG_B64`. -/
def screenshot (env : ScreenshotEnv) : String :=
  match screenshotAttempt env with
  | Except.ok b64 => b64
  | Except.error _ =>
    let _ := env.append_to_video (env.b64decode BLANK_PNG_B64)
    BLANK_PNG_B64

/-- Calls and call outputs: the items invariant I1 talks about. -/
def relevantB (i : Item) : Bool :=
  decide (i.type = "computer_call") || decide (i.type = "computer_call_output")

/-- Output items. -/
def isOutB (i : Item) : Bool := decide (i.type = "computer_call_output")

/-- Pairing invariant I1, per `call_id`: scanning left to right, every
`computer_call_output` whose `call_id` is `s` must come after a
`computer_call` whose `call_id` is `s`; `found` records whether such a call
has been passed already. -/
def pairedForId (s : Option String) : Bool → List Item → Bool
  | _, [] => true
  | found, it :: rest =>
    (!(decide (it.type = "computer_call_output" ∧ it.callId = s)) || found) &&
    pairedForId s (found || decide (it.type = "computer_call" ∧ it.callId = s)) rest

/-- No `computer_call` of the candidate occurs after a `computer_call_output`
with the same `call_id` (the ordering hypothesis of the amended pairing
claim). -/
def noCallAfterOutput : List Item → Bool
  | [] => true
  | it :: rest =>
    (!(decide (it.type = "computer_call_output")) ||
      rest.all (fun c => !(decide (c.type = "computer_call" ∧ c.callId = it.callId)))) &&
    noCallAfterOutput rest

/-- Classification of a `RuntimeError` message caught in `run_full_turn`
(src/agent/agent.py:673-691): the regex for a named missing reasoning id
(`required 'reasoning' item: 'rs_...'`), the substring test for
`No tool call found for computer call with call_id`, or anything else.  The
regex and substring machinery is Python standard library; the classification
is modelled by its outcome. -/
inductive ApiMsg where
  | namedReasoning (rsId : String)
  | missingCall (text : String)
  | other (text : String)
deriving DecidableEq

/-- Outcome of the inner send loop of `run_full_turn`: a response (whose
`"output"` field may in principle be absent, modelled as `none`) together
with the next service-call index, or a graceful give-up. -/
inductive SendOutcome where
  | success (resp : Option (List Item)) (nextIdx : Nat)
  | giveUp
deriving DecidableEq

/-- Environment of one turn: the fixed `input_items`, the remote service as
an oracle over the call number and the request sent (`create_response` either
returns a dict with an `"output"` list or raises a classified
`RuntimeError`), the value of the cooperative stop flag `request_stop` at
each poll, and the status strings produced by function-tool dispatch. -/
structure TurnCfg where
  input_items : List Item
  oracle : Nat → List Item → Except ApiMsg (Option (List Item))
  stopAt : Nat → Bool
  fnStatus : Item → String

/-- The items returned by `Agent.handle_item` (src/agent/agent.py:524-639):
a message or reasoning item yields nothing (reasoning is only buffered for
display), a `function_call` yields one `function_call_output` with the same
`call_id` and a status string, a `computer_call` executes the action and
yields one `computer_call_output` with the same `call_id` whose `"output"`
is an `input_image` payload (each of the three payload fallbacks of lines
589-618 has type `input_image`); anything else yields nothing.  Dispatched
actions are assumed to complete (a capability fault or a blocklisted URL
would propagate). -/
def handle_item_result (cfg : TurnCfg) (item : Item) : List Item :=
  if item.type = "message" then []
  else if item.type = "function_call" then
    [{ type := "function_call_output", callId := item.callId,
       outStr := some (cfg.fnStatus item) }]
  else if item.type = "reasoning" then []
  else if item.type = "computer_call" then
    [{ type := "computer_call_output", callId := item.callId,
       outType := some "input_image" }]
  else []

/-- The inner send loop of `run_full_turn` (src/agent/agent.py:657-695) with
`max_retries = 3`: a named-missing-reasoning error rebuilds the request from
a widened tail (`keep_tail=80`) with the named reasoning/call pair forced in
and re-runs the enforcer, a missing-call error rebuilds from a widened tail
and re-runs the enforcer, both retrying while `attempt < max_retries`; any
other error, or an exhausted budget, gives up.  Transient-fault retries live
inside `create_response` (src/utils.py) and are part of the oracle.  `fuel`
is called with `max_retries + 1 = 4`, an exact bound: every retry requires
`attempt < 3` and increments `attempt`. -/
def sendLoop (all : List Item)
    (oracle : Nat → List Item → Except ApiMsg (Option (List Item))) :
    Nat → List Item → Nat → Nat → SendOutcome
  | 0, _, _, _ => SendOutcome.giveUp
  | fuel + 1, next_input, attempt, apiIdx =>
    match oracle apiIdx next_input with
    | Except.ok resp => SendOutcome.success resp (apiIdx + 1)
    | Except.error (ApiMsg.namedReasoning rs) =>
      if attempt < 3 then
        sendLoop all oracle fuel
          (enforce_cua_via_pairs all
            (force_include_reasoning_and_call all (compact_base all 1 80) rs))
          (attempt + 1) (apiIdx + 1)
      else SendOutcome.giveUp
    | Except.error (ApiMsg.missingCall _) =>
      if attempt < 3 then
        sendLoop all oracle fuel
          (enforce_cua_via_pairs all (compact_base all 1 80))
          (attempt + 1) (apiIdx + 1)
      else SendOutcome.giveUp
    | Except.error (ApiMsg.other _) => SendOutcome.giveUp

/-- The `while` guard of `run_full_turn` (src/agent/agent.py:647):
`new_items[-1].get("role") != "assistant" if new_items else True`. -/
def loopCond (new_items : List Item) : Bool :=
  match new_items.getLast? with
  | none => true
  | some it => !(decide (it.role = some "assistant"))

/-- The dispatch loop over one response batch (src/agent/agent.py:704-709):
before each item the stop flag is polled (one poll index per check); on stop
the batch is abandoned, otherwise the item is passed to `handle_item` and its
results are appended.  Returns the appended items, the dispatched items with
the poll at which each was dispatched, and the next fresh poll index. -/
def processBatch (cfg : TurnCfg) : List Item → Nat → List Item × List (Nat × Item) × Nat
  | [], poll => ([], [], poll)
  | it :: rest, poll =>
    if cfg.stopAt poll then ([], [], poll + 1)
    else
      ((handle_item_result cfg it ++ (processBatch cfg rest (poll + 1)).1),
        ((poll, it) :: (processBatch cfg rest (poll + 1)).2.1),
        (processBatch cfg rest (poll + 1)).2.2)

/-- Result of a turn: the accumulated `new_items` and the dispatch trace. -/
structure RunResult where
  new_items : List Item
  dispatched : List (Nat × Item)
deriving DecidableEq

/-- The outer loop of `Agent.run_full_turn` (src/agent/agent.py:641-711):
while the last item is not an assistant message, poll the stop flag, compact
and enforce the next request, send it through the retry loop, and on success
append the response batch and dispatch it.  `fuel` bounds the number of
iterations of the source's unbounded `while` (the service drives it); `none`
reports that the bound was reached.  One poll index is consumed by the outer
stop check and one per batch iteration. -/
def runLoop (cfg : TurnCfg) : Nat → List Item → Nat → Nat → Option RunResult
  | 0, _, _, _ => none
  | fuel + 1, new_items, apiIdx, poll =>
    if loopCond new_items = false then some ⟨new_items, []⟩
    else if cfg.stopAt poll then some ⟨new_items, []⟩
    else
      match sendLoop (cfg.input_items ++ new_items) cfg.oracle 4
          (enforce_cua_via_pairs (cfg.input_items ++ new_items)
            (compact_base (cfg.input_items ++ new_items) 1 30)) 0 apiIdx with
      | SendOutcome.giveUp => some ⟨new_items, []⟩
      | SendOutcome.success none _ => some ⟨new_items, []⟩
      | SendOutcome.success (some out) apiIdx2 =>
        match runLoop cfg fuel
            (new_items ++ out ++ (processBatch cfg out (poll + 1)).1) apiIdx2
            ((processBatch cfg out (poll + 1)).2.2) with
        | none => none
        | some res =>
          some ⟨res.new_items, (processBatch cfg out (poll + 1)).2.1 ++ res.dispatched⟩

/-! ### Claim theorems -/

/-- Helper: membership form of the blocklist test of `check_blocklisted_url`. -/
theorem any_blocked_iff (h : String) :
    (BLOCKED_DOMAINS.any (fun blocked => h == blocked || pyEndsWith h ("." ++ blocked)) = true) ↔
    ∃ b ∈ BLOCKED_DOMAINS, h = b ∨ pyEndsWith h ("." ++ b) = true := by
  simp [List.any_eq_true]

/-- C10: `check_blocklisted_url` raises `ValueError` exactly when the parsed
hostname (missing hostname read as `""`, which is never blocked) equals one of
the six fixed blocklist entries or ends with `"."` followed by one of them;
for every other hostname it returns `None` without raising. -/
theorem check_blocklisted_url_spec :
    (∀ hostname : Option String,
        ((check_blocklisted_url hostname).isOk = false ↔
          ∃ b ∈ ["maliciousbook.com", "evilvideos.com", "darkwebforum.com",
                 "shadytok.com", "suspiciouspins.com", "ilanbigio.com"],
            hostname.getD "" = b ∨ pyEndsWith (hostname.getD "") ("." ++ b) = true)) ∧
    check_blocklisted_url none = Except.ok () := by
  constructor
  · intro hostname
    have hiff := any_blocked_iff (hostname.getD "")
    by_cases hb : (BLOCKED_DOMAINS.any
        (fun blocked => (hostname.getD "") == blocked ||
          pyEndsWith (hostname.getD "") ("." ++ blocked)) = true)
    · have herr : (check_blocklisted_url hostname).isOk = false := by
        unfold check_blocklisted_url
        rw [if_pos hb]
        rfl
      exact ⟨fun _ => hiff.mp hb, fun _ => herr⟩
    · have hok : check_blocklisted_url hostname = Except.ok () := by
        unfold check_blocklisted_url
        rw [if_neg hb]
      rw [hok]
      exact ⟨fun hcontra => absurd hcontra (by decide),
             fun hex => absurd (hiff.mpr hex) hb⟩
  · rfl

/-- C9: `BasePlaywrightComputer.screenshot` never propagates an exception:
it always returns a string, which is either the base64 encoding of the
captured page or, whenever any step of the capture fails, exactly the fixed
blank PNG `_BLANK_PNG_B64`. -/
theorem screenshot_mk_eq (ea ut : Except String Unit) (ps : Except String String)
    (av : String → Unit) (ms : Nat) (ss : Except String Unit) (be bd : String → String) :
    screenshot ⟨ea, ut, ps, av, ms, ss, be, bd⟩ =
      match screenshotAttempt ⟨ea, ut, ps, av, ms, ss, be, bd⟩ with
      | Except.ok b => b
      | Except.error _ => BLANK_PNG_B64 := rfl

theorem screenshotAttempt_capture_ok (av : String → Unit) (ms : Nat)
    (ss : Except String Unit) (be bd : String → String) (png : String) :
    screenshotAttempt ⟨Except.ok (), Except.ok (), Except.ok png, av, ms, ss, be, bd⟩ =
      match (if ms > 0 then ss else Except.ok ()) with
      | Except.error e => Except.error e
      | Except.ok _ => Except.ok (be png) := rfl

theorem screenshot_total_blank_on_failure :
    (∀ env : ScreenshotEnv,
        screenshot env = BLANK_PNG_B64 ∨
        ∃ png, env.page_screenshot = Except.ok png ∧ screenshot env = env.b64encode png) ∧
    (∀ env : ScreenshotEnv, (screenshotAttempt env).isOk = false →
        screenshot env = BLANK_PNG_B64) := by
  constructor
  · intro env
    obtain ⟨ea, ut, ps, av, ms, ss, be, bd⟩ := env
    cases ea with
    | error e => exact Or.inl rfl
    | ok u =>
      cases ut with
      | error e => exact Or.inl rfl
      | ok u2 =>
        cases ps with
        | error e => exact Or.inl rfl
        | ok png =>
          rcases Nat.eq_zero_or_pos ms with hms | hms
          · subst hms
            exact Or.inr ⟨png, rfl, rfl⟩
          · have hif : (if ms > 0 then ss else Except.ok ()) = ss := if_pos hms
            cases ss with
            | error e =>
              refine Or.inl ?_
              rw [screenshot_mk_eq, screenshotAttempt_capture_ok, hif]
            | ok u3 =>
              refine Or.inr ⟨png, rfl, ?_⟩
              rw [screenshot_mk_eq, screenshotAttempt_capture_ok, hif]
  · intro env hfail
    cases hA : screenshotAttempt env with
    | ok s => rw [hA] at hfail; simp [Except.isOk, Except.toBool] at hfail
    | error e => unfold screenshot; rw [hA]

/-- C9 witness: a concrete environment whose page capture fails yields the
blank PNG. -/
theorem screenshot_total_blank_on_failure_witness :
    screenshot
      { ensure_active_page := Except.ok (), update_timestamp_dom := Except.ok (),
        page_screenshot := Except.error "page closed",
        append_to_video := fun _ => (), stitch_sleep_ms := 0,
        stitch_sleep := Except.ok (), b64encode := fun s => s,
        b64decode := fun s => s } = BLANK_PNG_B64 :=
  screenshot_total_blank_on_failure.2 _ rfl

/-- C1: evaluation at the failing input.  With `keepImages = 1`, a full log
holding two screenshot-bearing `computer_call_output` items passes through
`_compact_base` followed by `_enforce_cua_via_pairs` unchanged, so the
repaired candidate still carries two visual-artifact-bearing items:
`_compact_base` only filters items whose top-level `"type"` is
`"input_image"`, a type no item of this program's logs ever has, so the
screenshot cap is never applied. -/
theorem repaired_candidate_keeps_two_screenshots :
    enforce_cua_via_pairs [uMsg, callI "c1", outImg "c1", callI "c2", outImg "c2"]
        (compact_base [uMsg, callI "c1", outImg "c1", callI "c2", outImg "c2"] 1 30) =
      [uMsg, callI "c1", outImg "c1", callI "c2", outImg "c2"] ∧
    ((enforce_cua_via_pairs [uMsg, callI "c1", outImg "c1", callI "c2", outImg "c2"]
        (compact_base [uMsg, callI "c1", outImg "c1", callI "c2", outImg "c2"] 1 30)).filter
      (fun o => decide (o.type = "computer_call_output" ∧
        o.outType = some "input_image"))).length = 2 := by
  decide

/-- C4: evaluation at the failing input.  The enforcer is not idempotent: on
`candidate = [r, m, call]` with full log `[r, call]`, the first pass pops the
paired reasoning `r` and re-inserts it after the call (the move branch at
src/agent/agent.py:113-117 inserts at `i` after popping an earlier index,
landing behind the call), so step 3 drops it as an orphan; the second pass
finds `r` absent and re-inserts it before the call, producing a longer,
different sequence. -/
theorem enforce_not_idempotent_eval :
    enforce_cua_via_pairs [rItem, callI "c1"] [rItem, aMsg, callI "c1"] = [aMsg, callI "c1"] ∧
    enforce_cua_via_pairs [rItem, callI "c1"]
        (enforce_cua_via_pairs [rItem, callI "c1"] [rItem, aMsg, callI "c1"]) =
      [aMsg, rItem, callI "c1"] ∧
    enforce_cua_via_pairs [rItem, callI "c1"]
        (enforce_cua_via_pairs [rItem, callI "c1"] [rItem, aMsg, callI "c1"]) ≠
      enforce_cua_via_pairs [rItem, callI "c1"] [rItem, aMsg, callI "c1"] := by
  decide

/-- Helper: an item found by `lastUserMessage` is a user message. -/
theorem lastUserMessage_props {all_items : List Item} {u : Item}
    (hu : lastUserMessage all_items = some u) :
    u.type = "message" ∧ u.role = some "user" := by
  have hp := List.find?_some hu
  simpa using hp

/-- Helper: `lastUserMessage` succeeds only on non-empty logs. -/
theorem lastUserMessage_ne_nil {all_items : List Item} {u : Item}
    (hu : lastUserMessage all_items = some u) : all_items ≠ [] := by
  intro h
  rw [h] at hu
  simp [lastUserMessage] at hu

/-- Helper: the latest user message is in the tail after the
"ensure latest user message" block. -/
theorem mem_withLastUser {all_items tail : List Item} {u : Item}
    (hu : lastUserMessage all_items = some u) :
    u ∈ withLastUser all_items tail := by
  unfold withLastUser
  rw [hu]
  show u ∈ (if u ∈ tail then tail else u :: tail)
  by_cases hmem : u ∈ tail
  · rw [if_pos hmem]; exact hmem
  · rw [if_neg hmem]; exact List.mem_cons_self u tail

/-- Helper: the screenshot-trimming block only removes items of top-level
type `"input_image"`. -/
theorem mem_imageTrim {u : Item} {tail : List Item} (keep_images : Nat)
    (hl : u ∈ tail) (ht : ¬ u.type = "input_image") :
    u ∈ imageTrim keep_images tail := by
  unfold imageTrim
  show u ∈
    (if (tail.filter (fun i => decide (i.type = "input_image"))).length > keep_images then
      tail.filter (fun i => decide
        (i ∉ pyButLast keep_images (tail.filter (fun i => decide (i.type = "input_image")))))
    else tail)
  split
  · refine List.mem_filter.mpr ⟨hl, decide_eq_true ?_⟩
    intro hdrop
    have hsub : pyButLast keep_images
        (tail.filter (fun i => decide (i.type = "input_image"))) ⊆
        tail.filter (fun i => decide (i.type = "input_image")) := by
      unfold pyButLast
      split
      · intro x hx; exact absurd hx (List.not_mem_nil x)
      · exact List.take_subset _ _
    exact ht (of_decide_eq_true (List.mem_filter.mp (hsub hdrop)).2)
  · exact hl

/-- C8: for every non-empty full log with at least one user message, the
output of `_compact_base` contains the most recent user message, whatever
`keep_images` and `keep_tail` are (in particular even when that message lies
outside the last `keep_tail` items). -/
theorem compact_base_keeps_last_user (all_items : List Item)
    (keep_images keep_tail : Nat) (u : Item)
    (hu : lastUserMessage all_items = some u) :
    u ∈ compact_base all_items keep_images keep_tail := by
  have hne := lastUserMessage_ne_nil hu
  have hprops := lastUserMessage_props hu
  have ht : ¬ u.type = "input_image" := by
    rw [hprops.1]; decide
  unfold compact_base
  rw [if_neg hne]
  exact mem_imageTrim keep_images (mem_withLastUser hu) ht

/-- C8 witness: a log whose only user message sits outside the 2-item tail
window still yields it in the compacted candidate. -/
theorem compact_base_keeps_last_user_witness :
    lastUserMessage [uMsg, callI "c1", outI "c1"] = some uMsg ∧
    uMsg ∈ compact_base [uMsg, callI "c1", outI "c1"] 1 2 :=
  ⟨by decide, compact_base_keeps_last_user _ 1 2 uMsg (by decide)⟩

/-- Invariant I2-converse as a decidable check: no `reasoning` item unless the
next item of the sequence is a `computer_call`. -/
def i2conv : List Item → Bool
  | [] => true
  | it :: rest =>
    (!(decide (it.type = "reasoning")) ||
      (match rest with
       | nxt :: _ => decide (nxt.type = "computer_call")
       | [] => false)) && i2conv rest

/-- Helper: the cons equation of `enforceStep3`. -/
theorem enforceStep3_cons (it : Item) (rest : List Item) :
    enforceStep3 (it :: rest) =
      if (decide (it.type = "reasoning") &&
          !(match rest with
            | nxt :: _ => decide (nxt.type = "computer_call")
            | [] => false)) = true then enforceStep3 rest
      else it :: enforceStep3 rest := by
  rfl

/-- Helper: the cons equation of `i2conv`. -/
theorem i2conv_cons (it : Item) (rest : List Item) :
    i2conv (it :: rest) =
      ((!(decide (it.type = "reasoning")) ||
        (match rest with
         | nxt :: _ => decide (nxt.type = "computer_call")
         | [] => false)) && i2conv rest) := by
  rfl

/-- Helper: step 3 keeps an item whose type is `computer_call` in head
position. -/
theorem enforceStep3_cons_call {nxt : Item} (rest : List Item)
    (h : nxt.type = "computer_call") :
    enforceStep3 (nxt :: rest) = nxt :: enforceStep3 rest := by
  rw [enforceStep3_cons]
  simp [h]

/-- Helper: the output of step 3 of the enforcer never contains a reasoning
item that is not immediately followed by a `computer_call`. -/
theorem i2conv_enforceStep3 (l : List Item) : i2conv (enforceStep3 l) = true := by
  induction l with
  | nil => rfl
  | cons it rest ih =>
    by_cases hr : it.type = "reasoning"
    · cases rest with
      | nil =>
        have hdrop : enforceStep3 [it] = [] := by
          rw [enforceStep3_cons]
          simp [hr]
          rfl
        rw [hdrop]; rfl
      | cons nxt r' =>
        by_cases hc : nxt.type = "computer_call"
        · have hkeep : enforceStep3 (it :: nxt :: r') = it :: enforceStep3 (nxt :: r') := by
            rw [enforceStep3_cons]
            simp [hr, hc]
          rw [hkeep, enforceStep3_cons_call r' hc]
          rw [enforceStep3_cons_call r' hc] at ih
          rw [i2conv_cons, ih]
          simp [hc]
        · have hdrop : enforceStep3 (it :: nxt :: r') = enforceStep3 (nxt :: r') := by
            rw [enforceStep3_cons]
            simp [hr, hc]
          rw [hdrop]; exact ih
    · have hkeep : enforceStep3 (it :: rest) = it :: enforceStep3 rest := by
        rw [enforceStep3_cons]
        simp [hr]
      rw [hkeep, i2conv_cons, ih]
      simp [hr]

/-- C3: in every output of `_enforce_cua_via_pairs`, every retained
`reasoning` item sits directly before a `computer_call`; no orphan reasoning
survives. -/
theorem enforce_no_orphan_reasoning (all_items request : List Item) :
    i2conv (enforce_cua_via_pairs all_items request) = true := by
  unfold enforce_cua_via_pairs
  split
  · rfl
  · exact i2conv_enforceStep3 _

/-- Items other than reasoning traces. -/
def nonReasoningB (i : Item) : Bool := !(decide (i.type = "reasoning"))

/-- Helper: the tail window is a subsequence of the log. -/
theorem pySuffix_sublist (k : Nat) (l : List Item) : List.Sublist (pySuffix k l) l := by
  unfold pySuffix
  split
  · exact List.Sublist.refl l
  · exact List.drop_sublist _ l

/-- Helper: an item found by `lastUserMessage` belongs to the log. -/
theorem lastUserMessage_mem {all_items : List Item} {u : Item}
    (hu : lastUserMessage all_items = some u) : u ∈ all_items := by
  have := List.mem_of_find?_eq_some hu
  exact List.mem_reverse.mp this

/-- Helper: prepending the latest user message still yields a subsequence of
the log. -/
theorem withLastUser_sublist (all_items : List Item) (kt : Nat) :
    List.Sublist (withLastUser all_items (pySuffix kt all_items)) all_items := by
  unfold withLastUser
  cases hu : lastUserMessage all_items with
  | none => exact pySuffix_sublist kt all_items
  | some u =>
    show List.Sublist
      (if u ∈ pySuffix kt all_items then pySuffix kt all_items
       else u :: pySuffix kt all_items) all_items
    by_cases hmem : u ∈ pySuffix kt all_items
    · rw [if_pos hmem]; exact pySuffix_sublist kt all_items
    · rw [if_neg hmem]
      have humem : u ∈ all_items := lastUserMessage_mem hu
      by_cases hk : kt = 0
      · exact absurd (by simpa [pySuffix, hk] using humem) hmem
      · have hsuf : pySuffix kt all_items = all_items.drop (all_items.length - kt) := by
          simp [pySuffix, hk]
        have hutake : u ∈ all_items.take (all_items.length - kt) := by
          rcases (List.mem_append.mp
            ((List.take_append_drop (all_items.length - kt) all_items).symm ▸ humem)) with h | h
          · exact h
          · exact absurd (hsuf ▸ h) hmem
        have h1 : List.Sublist [u] (all_items.take (all_items.length - kt)) :=
          List.singleton_sublist.mpr hutake
        have h2 : List.Sublist (pySuffix kt all_items)
            (all_items.drop (all_items.length - kt)) := by
          rw [hsuf]
        have h3 := List.Sublist.append h1 h2
        rw [List.take_append_drop] at h3
        exact h3

/-- Helper: screenshot trimming yields a subsequence of its input. -/
theorem imageTrim_sublist (k : Nat) (tail : List Item) :
    List.Sublist (imageTrim k tail) tail := by
  unfold imageTrim
  show List.Sublist
    (if (tail.filter (fun i => decide (i.type = "input_image"))).length > k then
      tail.filter (fun i => decide
        (i ∉ pyButLast k (tail.filter (fun i => decide (i.type = "input_image")))))
    else tail) tail
  split
  · exact List.filter_sublist tail
  · exact List.Sublist.refl tail

/-- Helper: the compacted candidate is a subsequence of the full log. -/
theorem compact_base_sublist (all_items : List Item) (ki kt : Nat) :
    List.Sublist (compact_base all_items ki kt) all_items := by
  unfold compact_base
  split
  · exact List.nil_sublist all_items
  · exact (imageTrim_sublist ki _).trans (withLastUser_sublist all_items kt)

/-- Helper: a Python insert extends a list to a supersequence. -/
theorem sublist_pyInsert (i : Nat) (x : Item) (l : List Item) :
    List.Sublist l (pyInsert i x l) := by
  unfold pyInsert
  have h := List.Sublist.append_left (List.sublist_cons_self x (l.drop i)) (l.take i)
  rw [List.take_append_drop] at h
  exact h

/-- Helper: one insertion step either leaves the request alone or inserts a
`computer_call` somewhere. -/
theorem step1Insert_cases (request req : List Item) (it : Item) :
    step1Insert request req it = req ∨
      ∃ k, it.type = "computer_call" ∧ step1Insert request req it = pyInsert k it req := by
  unfold step1Insert
  split
  · rename_i hcond
    right
    refine ⟨firstOutIdx req it.callId, ?_, rfl⟩
    have h12 := (Bool.and_eq_true _ _).mp hcond
    exact of_decide_eq_true h12.1
  · left; rfl

/-- Helper: step 1 of the enforcer only inserts items, so the request is a
subsequence of its output. -/
theorem sublist_enforceStep1 (all_items request : List Item) :
    List.Sublist request (enforceStep1 all_items request) := by
  unfold enforceStep1
  split
  · exact List.Sublist.refl request
  · have hstep : ∀ (its : List Item) (req : List Item),
        List.Sublist req (its.foldl (step1Insert request) req) := by
      intro its
      induction its with
      | nil => intro req; exact List.Sublist.refl req
      | cons a t ih =>
        intro req
        refine List.Sublist.trans ?_ (ih _)
        rcases step1Insert_cases request req a with heq | ⟨k, _, heq⟩
        · rw [heq]
        · rw [heq]
          exact sublist_pyInsert _ _ _
    exact hstep all_items request

/-- Helper: every value stored by `_pair_reasoning_calls` is a reasoning item. -/
theorem pairList_snd_reasoning :
    ∀ (l : List Item) (pr : String × Item), pr ∈ pairList l → pr.2.type = "reasoning" := by
  intro l
  induction l with
  | nil => intro pr h; simp [pairList] at h
  | cons a t ih =>
    cases t with
    | nil => intro pr h; simp [pairList] at h
    | cons b t' =>
      intro pr h
      have heq : pairList (a :: b :: t') =
          ((if a.type = "reasoning" ∧ b.type = "computer_call" ∧
              truthy b.callId = true ∧ truthy a.id = true then
            [(b.callId.getD "", a)] else []) ++ pairList (b :: t')) := rfl
      rw [heq] at h
      rcases List.mem_append.mp h with h1 | h2
      · split at h1
        · rename_i hcond
          have : pr = (b.callId.getD "", a) := by simpa using h1
          rw [this]
          exact hcond.1
        · simp at h1
      · exact ih pr h2

/-- Helper: `callid_to_reasoning` lookups only return reasoning items. -/
theorem callidToReasoning_reasoning {all_items : List Item} {cid : Option String} {r : Item}
    (h : callidToReasoning all_items cid = some r) : r.type = "reasoning" := by
  cases cid with
  | none => simp [callidToReasoning] at h
  | some s =>
    replace h : Option.map (fun p => p.2)
        ((pairList all_items).reverse.find? (fun p => decide (p.1 = s))) = some r := h
    cases hf : ((pairList all_items).reverse.find? (fun p => decide (p.1 = s))) with
    | none => rw [hf] at h; simp at h
    | some pr =>
      rw [hf] at h
      have hpr : pr.2 = r := by simpa using h
      have hmem : pr ∈ (pairList all_items).reverse := List.mem_of_find?_eq_some hf
      have := pairList_snd_reasoning all_items pr (List.mem_reverse.mp hmem)
      rw [hpr] at this
      exact this

/-- Helper: inserting an item the filter rejects leaves the filter unchanged. -/
theorem filter_pyInsert_neg (p : Item → Bool) (i : Nat) (x : Item) (l : List Item)
    (hx : p x = false) : (pyInsert i x l).filter p = l.filter p := by
  unfold pyInsert
  rw [List.filter_append, List.filter_cons_of_neg (by simp [hx]), ← List.filter_append,
    List.take_append_drop]

/-- Helper: popping the first occurrence of an item the filter rejects leaves
the filter unchanged. -/
theorem filter_pyPop_pyIndex (p : Item → Bool) (r : Item) :
    ∀ (l : List Item), r ∈ l → p r = false →
      (pyPop (pyIndex r l) l).filter p = l.filter p := by
  intro l
  induction l with
  | nil => intro hmem; exact absurd hmem (List.not_mem_nil r)
  | cons a t ih =>
    intro hmem hp
    by_cases har : a = r
    · have hidx : pyIndex r (a :: t) = 0 := by simp [pyIndex, har]
      rw [hidx]
      have hpop : pyPop 0 (a :: t) = t := rfl
      rw [hpop, har, List.filter_cons_of_neg (by simp [hp])]
    · have hidx : pyIndex r (a :: t) = pyIndex r t + 1 := by simp [pyIndex, har]
      have hmem' : r ∈ t := by
        rcases List.mem_cons.mp hmem with h | h
        · exact absurd h.symm har
        · exact h
      rw [hidx]
      have hpop : pyPop (pyIndex r t + 1) (a :: t) = a :: pyPop (pyIndex r t) t := by
        unfold pyPop
        rw [List.take_succ_cons, List.drop_succ_cons]
        rfl
      rw [hpop, List.filter_cons, List.filter_cons, ih hmem' hp]

/-- Helper: step 2 of the enforcer only inserts and moves reasoning items, so
any filter rejecting reasoning items is unchanged by it. -/
theorem enforceStep2go_filter (p : Item → Bool) (lookup : Option String → Option Item)
    (hlook : ∀ cid r, lookup cid = some r → p r = false) :
    ∀ (fuel : Nat) (req : List Item) (i : Nat),
      (enforceStep2go lookup fuel req i).filter p = req.filter p := by
  intro fuel
  induction fuel with
  | zero => intro req i; rfl
  | succ fuel ih =>
    intro req i
    rw [enforceStep2go]
    split
    · rename_i hlt
      split
      · rename_i hcall
        cases hr : lookup (req.get ⟨i, hlt⟩).callId with
        | some r =>
          have hpr : p r = false := hlook _ _ hr
          show List.filter p
              (if r ∈ req then
                if pyIndex r req + 1 ≠ i then
                  enforceStep2go lookup fuel (pyInsert i r (pyPop (pyIndex r req) req)) (i + 2)
                else enforceStep2go lookup fuel req (i + 1)
              else enforceStep2go lookup fuel (pyInsert i r req) (i + 2)) =
            List.filter p req
          by_cases hin : r ∈ req
          · rw [if_pos hin]
            by_cases hidx : pyIndex r req + 1 ≠ i
            · rw [if_pos hidx, ih, filter_pyInsert_neg p _ _ _ hpr,
                filter_pyPop_pyIndex p r req hin hpr]
            · rw [if_neg hidx, ih]
          · rw [if_neg hin, ih, filter_pyInsert_neg p _ _ _ hpr]
        | none => rw [ih]
      · rw [ih]
    · rfl

/-- Helper: step 3 only drops reasoning items, so any filter rejecting
reasoning items is unchanged by it. -/
theorem enforceStep3_filter (p : Item → Bool)
    (hp : ∀ it : Item, it.type = "reasoning" → p it = false) :
    ∀ l : List Item, (enforceStep3 l).filter p = l.filter p := by
  intro l
  induction l with
  | nil => rfl
  | cons it rest ih =>
    rw [enforceStep3_cons]
    split
    · rename_i hcond
      have hreason : it.type = "reasoning" := by
        have := (Bool.and_eq_true _ _).mp hcond
        exact of_decide_eq_true this.1
      rw [ih, List.filter_cons_of_neg (by simp [hp it hreason])]
    · rw [List.filter_cons, List.filter_cons, ih]

/-- Helper: the enforcer's output has the same non-reasoning filtrate as the
output of its step 1, for any filter that rejects reasoning items. -/
theorem enforce_filter_eq_step1 (p : Item → Bool)
    (hp : ∀ it : Item, it.type = "reasoning" → p it = false)
    (all_items request : List Item) :
    (enforce_cua_via_pairs all_items request).filter p =
      (enforceStep1 all_items request).filter p := by
  unfold enforce_cua_via_pairs
  split
  · rename_i hreq
    rw [hreq]
    rfl
  · unfold enforceStep2
    rw [enforceStep3_filter p hp,
      enforceStep2go_filter p (callidToReasoning all_items)
        (fun cid r h => hp r (callidToReasoning_reasoning h))]

/-- C5 (amended): order preservation.  The Compactor's output is a
subsequence of the full log, so any two items present in both keep their
full-log order.  The Enforcer preserves, for the items of the candidate that
are not reasoning traces, their relative order from the candidate: the
candidate's non-reasoning filtrate is a subsequence of the output's. -/
theorem compactor_enforcer_order :
    (∀ (all_items : List Item) (keep_images keep_tail : Nat),
        List.Sublist (compact_base all_items keep_images keep_tail) all_items) ∧
    (∀ (all_items request : List Item),
        List.Sublist (request.filter nonReasoningB)
          ((enforce_cua_via_pairs all_items request).filter nonReasoningB)) := by
  constructor
  · exact compact_base_sublist
  · intro all_items request
    rw [enforce_filter_eq_step1 nonReasoningB
      (fun it h => by simp [nonReasoningB, h]) all_items request]
    exact (sublist_enforceStep1 all_items request).filter nonReasoningB

/-- C5 counterexample: the claim as stated is false.  First instance: with
full log `[call c1, out c1]` and candidate `[out c1, call c1]`, the enforcer
returns the candidate unchanged, so the output and candidate both contain the
call and the output item, yet their output order (out before call) is the
reverse of their full-log order (call before out).  Second instance: a
reasoning item and a filler message are both in the candidate and the output,
in the full log the reasoning precedes the message, but step 2 of the
enforcer moves the reasoning behind its paired call, reversing their order
relative to both the full log and the candidate. -/
theorem order_preservation_counterexample :
    (enforce_cua_via_pairs [callI "c1", outI "c1"] [outI "c1", callI "c1"] =
        [outI "c1", callI "c1"] ∧
      pyIndex (callI "c1") [callI "c1", outI "c1"] <
        pyIndex (outI "c1") [callI "c1", outI "c1"] ∧
      pyIndex (outI "c1")
          (enforce_cua_via_pairs [callI "c1", outI "c1"] [outI "c1", callI "c1"]) <
        pyIndex (callI "c1")
          (enforce_cua_via_pairs [callI "c1", outI "c1"] [outI "c1", callI "c1"])) ∧
    (enforce_cua_via_pairs [rItem, callI "c1", callI "c2", aMsg]
        [rItem, aMsg, callI "c1", callI "c2"] = [aMsg, callI "c1", rItem, callI "c2"] ∧
      pyIndex rItem [rItem, callI "c1", callI "c2", aMsg] <
        pyIndex aMsg [rItem, callI "c1", callI "c2", aMsg] ∧
      pyIndex rItem [rItem, aMsg, callI "c1", callI "c2"] <
        pyIndex aMsg [rItem, aMsg, callI "c1", callI "c2"] ∧
      pyIndex aMsg
          (enforce_cua_via_pairs [rItem, callI "c1", callI "c2", aMsg]
            [rItem, aMsg, callI "c1", callI "c2"]) <
        pyIndex rItem
          (enforce_cua_via_pairs [rItem, callI "c1", callI "c2", aMsg]
            [rItem, aMsg, callI "c1", callI "c2"])) := by
  decide

/-- Helper: the cons equation of `pairedForId`. -/
theorem pairedForId_cons (s : Option String) (found : Bool) (it : Item) (rest : List Item) :
    pairedForId s found (it :: rest) =
      ((!(decide (it.type = "computer_call_output" ∧ it.callId = s)) || found) &&
        pairedForId s (found || decide (it.type = "computer_call" ∧ it.callId = s)) rest) := by
  rfl

/-- Helper: once the call has been passed, the per-id pairing check always
succeeds. -/
theorem pairedForId_true (s : Option String) :
    ∀ l : List Item, pairedForId s true l = true := by
  intro l
  induction l with
  | nil => rfl
  | cons it rest ih => rw [pairedForId_cons]; simp [ih]

/-- Helper: the per-id pairing check is monotone in `found`. -/
theorem pairedForId_mono {s : Option String} {l : List Item} (b : Bool)
    (h : pairedForId s false l = true) : pairedForId s b l = true := by
  cases b
  · exact h
  · exact pairedForId_true s l

/-- Helper: inserting a `computer_call` anywhere preserves the per-id pairing
check. -/
theorem pairedForId_pyInsert_call (s : Option String) (c : Item)
    (hc : c.type = "computer_call") :
    ∀ (l : List Item) (k : Nat) (found : Bool),
      pairedForId s found l = true → pairedForId s found (pyInsert k c l) = true := by
  have hcnotout : decide (c.type = "computer_call_output" ∧ c.callId = s) = false := by
    simp [hc]
  intro l
  induction l with
  | nil =>
    intro k found _
    have : pyInsert k c [] = [c] := by simp [pyInsert]
    rw [this, pairedForId_cons]
    simp only [hcnotout]
    rfl
  | cons a t ih =>
    intro k found h
    cases k with
    | zero =>
      have : pyInsert 0 c (a :: t) = c :: a :: t := rfl
      rw [this, pairedForId_cons]
      refine (Bool.and_eq_true _ _).mpr ⟨by simp [hcnotout], ?_⟩
      cases hd : decide (c.type = "computer_call" ∧ c.callId = s)
      · simpa using h
      · simp [pairedForId_true]
    | succ k' =>
      have : pyInsert (k' + 1) c (a :: t) = a :: pyInsert k' c t := by
        unfold pyInsert
        rw [List.take_succ_cons, List.drop_succ_cons]
        rfl
      rw [this, pairedForId_cons]
      rw [pairedForId_cons] at h
      have h12 := (Bool.and_eq_true _ _).mp h
      exact (Bool.and_eq_true _ _).mpr ⟨h12.1, ih k' _ h12.2⟩

/-- Helper: inserting the matching `computer_call` directly before the first
output referencing it establishes the per-id pairing check outright. -/
theorem pairedForId_pyInsert_firstOut (s : Option String) (c : Item)
    (hc : c.type = "computer_call") (hcs : c.callId = s) :
    ∀ (l : List Item) (found : Bool),
      pairedForId s found (pyInsert (firstOutIdx l s) c l) = true := by
  have hcnotout : decide (c.type = "computer_call_output" ∧ c.callId = s) = false := by
    simp [hc]
  have hciscall : decide (c.type = "computer_call" ∧ c.callId = s) = true := by
    simp [hc, hcs]
  intro l
  induction l with
  | nil =>
    intro found
    have : pyInsert (firstOutIdx [] s) c [] = [c] := by simp [pyInsert]
    rw [this, pairedForId_cons]
    simp only [hcnotout]
    rfl
  | cons a t ih =>
    intro found
    by_cases hq : (a.type = "computer_call_output" ∧ a.callId = s)
    · have hidx : firstOutIdx (a :: t) s = 0 := by
        simp [firstOutIdx, List.findIdx_cons, hq]
      rw [hidx]
      have : pyInsert 0 c (a :: t) = c :: a :: t := rfl
      rw [this, pairedForId_cons]
      refine (Bool.and_eq_true _ _).mpr ⟨by simp [hcnotout], ?_⟩
      rw [hciscall]
      simp [pairedForId_true]
    · have hqd : (decide (a.type = "computer_call_output") && decide (a.callId = s)) = false := by
        rw [← Bool.decide_and]
        exact decide_eq_false hq
      have hidx : firstOutIdx (a :: t) s = firstOutIdx t s + 1 := by
        simp [firstOutIdx, List.findIdx_cons, hqd]
      rw [hidx]
      have : pyInsert (firstOutIdx t s + 1) c (a :: t) = a :: pyInsert (firstOutIdx t s) c t := by
        unfold pyInsert
        rw [List.take_succ_cons, List.drop_succ_cons]
        rfl
      rw [this, pairedForId_cons]
      refine (Bool.and_eq_true _ _).mpr ⟨by simp [hq], ih _⟩

/-- Helper: when no output of the list references `s`, the per-id pairing
check holds trivially. -/
theorem pairedForId_no_out (s : Option String) :
    ∀ (l : List Item) (found : Bool),
      (∀ o ∈ l, ¬(o.type = "computer_call_output" ∧ o.callId = s)) →
      pairedForId s found l = true := by
  intro l
  induction l with
  | nil => intro found _; rfl
  | cons a t ih =>
    intro found hno
    rw [pairedForId_cons]
    refine (Bool.and_eq_true _ _).mpr ⟨?_, ?_⟩
    · simp [hno a (List.mem_cons_self a t)]
    · exact ih _ (fun o ho => hno o (List.mem_cons_of_mem a ho))

/-- Helper: the per-id pairing check only looks at calls and outputs. -/
theorem pairedForId_filter_relevant (s : Option String) :
    ∀ (l : List Item) (found : Bool),
      pairedForId s found l = pairedForId s found (l.filter relevantB) := by
  intro l
  induction l with
  | nil => intro found; rfl
  | cons a t ih =>
    intro found
    by_cases ha : relevantB a = true
    · rw [List.filter_cons_of_pos ha, pairedForId_cons, pairedForId_cons, ih]
    · have hnc : decide (a.type = "computer_call" ∧ a.callId = s) = false := by
        simp only [relevantB, Bool.or_eq_true, decide_eq_true_eq] at ha
        push_neg at ha
        simp [ha.1]
      have hno : decide (a.type = "computer_call_output" ∧ a.callId = s) = false := by
        simp only [relevantB, Bool.or_eq_true, decide_eq_true_eq] at ha
        push_neg at ha
        simp [ha.2]
      rw [List.filter_cons_of_neg (by simp [ha]), pairedForId_cons, hnc, hno]
      simp [ih]

/-- Helper: the insertion fold of step 1 preserves the per-id pairing check. -/
theorem pairedForId_foldl_pres (s : Option String) (request : List Item) :
    ∀ (items req : List Item) (found : Bool),
      pairedForId s found req = true →
      pairedForId s found (items.foldl (step1Insert request) req) = true := by
  intro items
  induction items with
  | nil => intro req found h; exact h
  | cons a t ih =>
    intro req found h
    rw [List.foldl_cons]
    rcases step1Insert_cases request req a with heq | ⟨k, hcall, heq⟩
    · rw [heq]; exact ih req found h
    · rw [heq]
      exact ih _ found (pairedForId_pyInsert_call s a hcall req k found h)

/-- Helper: if the insertion fold meets a `computer_call` whose id is `s` and
whose guard fires, the per-id pairing check for `s` holds afterwards. -/
theorem pairedForId_foldl_create (s : Option String) (request : List Item)
    (c : Item) (hc : c.type = "computer_call") (hcs : c.callId = s)
    (hcf : ∀ req, step1Insert request req c = pyInsert (firstOutIdx req s) c req) :
    ∀ (items req : List Item), c ∈ items →
      pairedForId s false (items.foldl (step1Insert request) req) = true := by
  intro items
  induction items with
  | nil => intro req h; exact absurd h (List.not_mem_nil c)
  | cons a t ih =>
    intro req hmem
    rw [List.foldl_cons]
    rcases List.mem_cons.mp hmem with h | h
    · rw [← h, hcf req]
      exact pairedForId_foldl_pres s request t _ false
        (pairedForId_pyInsert_firstOut s c hc hcs req false)
    · exact ih _ h

/-- Helper: the cons equation of `noCallAfterOutput`. -/
theorem noCallAfterOutput_cons (it : Item) (rest : List Item) :
    noCallAfterOutput (it :: rest) =
      ((!(decide (it.type = "computer_call_output")) ||
        rest.all (fun c => !(decide (c.type = "computer_call" ∧ c.callId = it.callId)))) &&
      noCallAfterOutput rest) := by
  rfl

/-- Helper: when the candidate itself holds a `computer_call` for `s` and no
call of the candidate sits after an output with the same id, the candidate
already satisfies the per-id pairing check for `s`. -/
theorem pairedForId_of_call_mem (s : Option String) :
    ∀ l : List Item, noCallAfterOutput l = true →
      (∃ c ∈ l, c.type = "computer_call" ∧ c.callId = s) →
      pairedForId s false l = true := by
  intro l
  induction l with
  | nil =>
    intro _ h
    rcases h with ⟨c, hc, _⟩
    exact absurd hc (List.not_mem_nil c)
  | cons a t ih =>
    intro hno hex
    have hno2 := (Bool.and_eq_true _ _).mp ((noCallAfterOutput_cons a t) ▸ hno)
    by_cases hacall : (a.type = "computer_call" ∧ a.callId = s)
    · rw [pairedForId_cons]
      refine (Bool.and_eq_true _ _).mpr ⟨by simp [hacall.1], ?_⟩
      rw [decide_eq_true hacall]
      simp [pairedForId_true]
    · rcases hex with ⟨c, hcmem, hcprop⟩
      have hct : c ∈ t := by
        rcases List.mem_cons.mp hcmem with h | h
        · exact absurd (h ▸ hcprop) hacall
        · exact h
      rw [pairedForId_cons]
      refine (Bool.and_eq_true _ _).mpr ⟨?_, ?_⟩
      · by_cases haout : (a.type = "computer_call_output" ∧ a.callId = s)
        · exfalso
          have hall : t.all
              (fun c' => !(decide (c'.type = "computer_call" ∧ c'.callId = a.callId))) = true := by
            rcases Bool.or_eq_true _ _ |>.mp hno2.1 with h | h
            · rw [Bool.not_eq_true'] at h
              exact absurd haout.1 (by simpa using h)
            · exact h
          have := List.all_eq_true.mp hall c hct
          rw [Bool.not_eq_true'] at this
          have hcfalse := of_decide_eq_false this
          exact hcfalse ⟨hcprop.1, by rw [hcprop.2, haout.2]⟩
        · simp [haout]
      · rw [decide_eq_false hacall]
        simp only [Bool.or_false]
        exact ih hno2.2 ⟨c, hct, hcprop⟩

/-- Helper: step 1 only inserts `computer_call` items, so any filter that
rejects calls is unchanged by it. -/
theorem enforceStep1_filter (p : Item → Bool)
    (hp : ∀ it : Item, it.type = "computer_call" → p it = false)
    (all_items request : List Item) :
    (enforceStep1 all_items request).filter p = request.filter p := by
  unfold enforceStep1
  split
  · rfl
  · have hstep : ∀ (its req : List Item),
        (its.foldl (step1Insert request) req).filter p = req.filter p := by
      intro its
      induction its with
      | nil => intro req; rfl
      | cons a t ih =>
        intro req
        rw [List.foldl_cons]
        rcases step1Insert_cases request req a with heq | ⟨k, hcall, heq⟩
        · rw [heq, ih]
        · rw [heq, ih, filter_pyInsert_neg p _ _ _ (hp a hcall)]
    exact hstep all_items request

/-- Helper: a truthy output id is collected into `needed`. -/
theorem mem_neededIds {request : List Item} {o : Item} {str : String}
    (ho : o ∈ request) (hout : o.type = "computer_call_output")
    (hid : o.callId = some str) (hne : str ≠ "") : str ∈ neededIds request := by
  unfold neededIds
  refine List.mem_filter.mpr ⟨?_, by simpa using hne⟩
  exact List.mem_filterMap.mpr ⟨o, List.mem_filter.mpr ⟨ho, by simp [hout]⟩, hid⟩

/-- Helper: a needed id that is not missing is in `have`. -/
theorem have_of_not_missing {request : List Item} {str : String}
    (hneed : str ∈ neededIds request) (hnm : str ∉ missingIds request) :
    some str ∈ haveIds request := by
  by_contra habs
  exact hnm (List.mem_filter.mpr ⟨hneed, by simpa using habs⟩)

/-- Helper: ids in `have` come from calls of the request. -/
theorem exists_call_of_have {request : List Item} {str : String}
    (h : some str ∈ haveIds request) :
    ∃ c ∈ request, c.type = "computer_call" ∧ c.callId = some str := by
  unfold haveIds at h
  rcases List.mem_map.mp h with ⟨c, hcmem, hcid⟩
  have hcf := List.mem_filter.mp hcmem
  exact ⟨c, hcf.1, of_decide_eq_true hcf.2, hcid⟩

/-- Helper: the per-id pairing check holds on the output of step 1 under the
amended hypotheses. -/
theorem enforceStep1_pairedForId (all_items request : List Item)
    (h1 : ∀ o ∈ request, o.type = "computer_call_output" → truthy o.callId = true)
    (h2 : ∀ o ∈ request, o.type = "computer_call_output" →
      ∃ c ∈ all_items, c.type = "computer_call" ∧ c.callId = o.callId)
    (h3 : noCallAfterOutput request = true) (s : Option String) :
    pairedForId s false (enforceStep1 all_items request) = true := by
  by_cases hex : ∃ o ∈ request, o.type = "computer_call_output" ∧ o.callId = s
  · rcases hex with ⟨o, ho, hoprop⟩
    have htr := h1 o ho hoprop.1
    obtain ⟨str, hstr⟩ : ∃ str, o.callId = some str := by
      cases hco : o.callId with
      | none => rw [hco] at htr; simp [truthy] at htr
      | some str => exact ⟨str, rfl⟩
    have hsne : str ≠ "" := by
      rw [hstr] at htr
      simpa [truthy] using htr
    have hs : s = some str := by rw [← hoprop.2, hstr]
    subst hs
    by_cases hm : str ∈ missingIds request
    · have hnem : (missingIds request).isEmpty = false := by
        cases hmv : missingIds request with
        | nil => rw [hmv] at hm; exact absurd hm (List.not_mem_nil str)
        | cons x xs => rfl
      rcases h2 o ho hoprop.1 with ⟨c, hcall_mem, hcprop⟩
      have hcid : c.callId = some str := by rw [hcprop.2, hstr]
      have hcf : ∀ req, step1Insert request req c = pyInsert (firstOutIdx req (some str)) c req := by
        intro req
        unfold step1Insert
        rw [if_pos]
        · rw [hcid]
        · rw [hcid]
          simp [hcprop.1, hm]
      unfold enforceStep1
      rw [if_neg (by simp [hnem])]
      exact pairedForId_foldl_create (some str) request c hcprop.1 hcid hcf
        all_items request hcall_mem
    · have hneed : str ∈ neededIds request := mem_neededIds ho hoprop.1 hstr hsne
      rcases exists_call_of_have (have_of_not_missing hneed hm) with ⟨c, hcm, hcp⟩
      have hbase : pairedForId (some str) false request = true :=
        pairedForId_of_call_mem (some str) request h3 ⟨c, hcm, hcp⟩
      unfold enforceStep1
      split
      · exact hbase
      · exact pairedForId_foldl_pres (some str) request all_items request false hbase
  · apply pairedForId_no_out s _ _
    intro o ho hcon
    have hfeq := enforceStep1_filter isOutB
      (fun it h => by simp [isOutB, h]) all_items request
    have hmemf : o ∈ (enforceStep1 all_items request).filter isOutB :=
      List.mem_filter.mpr ⟨ho, by simp [isOutB, hcon.1]⟩
    rw [hfeq] at hmemf
    exact hex ⟨o, (List.mem_filter.mp hmemf).1, hcon⟩

/-- Helper: the per-id pairing check yields, for every decomposition at an
output referencing that id, a preceding matching call. -/
theorem pairedForId_split (s : Option String) :
    ∀ (pre : List Item) (o : Item) (post : List Item) (found : Bool),
      pairedForId s found (pre ++ o :: post) = true →
      o.type = "computer_call_output" → o.callId = s →
      found = true ∨ ∃ c ∈ pre, c.type = "computer_call" ∧ c.callId = s := by
  intro pre
  induction pre with
  | nil =>
    intro o post found h hout hid
    rw [List.nil_append, pairedForId_cons] at h
    have h12 := (Bool.and_eq_true _ _).mp h
    left
    have hdec : decide (o.type = "computer_call_output" ∧ o.callId = s) = true :=
      decide_eq_true ⟨hout, hid⟩
    rcases (Bool.or_eq_true _ _).mp h12.1 with hh | hh
    · rw [Bool.not_eq_true'] at hh
      rw [hdec] at hh
      exact absurd hh (by simp)
    · exact hh
  | cons a pre' ih =>
    intro o post found h hout hid
    rw [List.cons_append, pairedForId_cons] at h
    have h12 := (Bool.and_eq_true _ _).mp h
    rcases ih o post _ h12.2 hout hid with hf | ⟨c, hcm, hcp⟩
    · rcases (Bool.or_eq_true _ _).mp hf with hff | hfa
      · left; exact hff
      · right; exact ⟨a, List.mem_cons_self a pre', of_decide_eq_true hfa⟩
    · right; exact ⟨c, List.mem_cons_of_mem a hcm, hcp⟩

/-- C2 (amended): for every full log and candidate such that (i) every
`computer_call_output` of the candidate carries a truthy (non-empty)
`call_id`, (ii) that `call_id` has a matching `computer_call` somewhere in the
full log, and (iii) no `computer_call` of the candidate occurs after a
`computer_call_output` with the same `call_id`, the Enforcer's output
satisfies I1: every `computer_call_output` of the output is preceded, at a
strictly earlier position, by a `computer_call` with the same `call_id`. -/
theorem enforce_pairing_amended (all_items request : List Item)
    (h1 : ∀ o ∈ request, o.type = "computer_call_output" → truthy o.callId = true)
    (h2 : ∀ o ∈ request, o.type = "computer_call_output" →
      ∃ c ∈ all_items, c.type = "computer_call" ∧ c.callId = o.callId)
    (h3 : noCallAfterOutput request = true) :
    ∀ (pre : List Item) (o : Item) (post : List Item),
      enforce_cua_via_pairs all_items request = pre ++ o :: post →
      o.type = "computer_call_output" →
      ∃ c ∈ pre, c.type = "computer_call" ∧ c.callId = o.callId := by
  intro pre o post heq hout
  have hstep1 := enforceStep1_pairedForId all_items request h1 h2 h3 o.callId
  have hrel : ∀ it : Item, it.type = "reasoning" → relevantB it = false := by
    intro it h; simp [relevantB, h]
  have henf : pairedForId o.callId false (enforce_cua_via_pairs all_items request) = true := by
    rw [pairedForId_filter_relevant, enforce_filter_eq_step1 relevantB hrel all_items request,
      ← pairedForId_filter_relevant]
    exact hstep1
  rw [heq] at henf
  rcases pairedForId_split o.callId pre o post false henf hout rfl with hf | hgoal
  · exact absurd hf (by simp)
  · exact hgoal

/-- C2 counterexample: the claim as stated is false.  With full log
`[call c1, out c1]` and candidate `[out c1, call c1]`, every `call_id`
referenced by an output of the candidate has a matching call in the full log,
yet the enforcer returns the candidate unchanged (`needed - have` is empty,
so step 1 does nothing), and its first item is an output whose prefix holds
no call at all. -/
theorem enforce_pairing_counterexample :
    (∀ o ∈ [outI "c1", callI "c1"], o.type = "computer_call_output" →
      ∃ c ∈ [callI "c1", outI "c1"], c.type = "computer_call" ∧ c.callId = o.callId) ∧
    enforce_cua_via_pairs [callI "c1", outI "c1"] [outI "c1", callI "c1"] =
      [] ++ outI "c1" :: [callI "c1"] ∧
    ¬ ∃ c ∈ ([] : List Item), c.type = "computer_call" ∧ c.callId = (outI "c1").callId := by
  decide

/-- C2 witness: a concrete run of the amended theorem.  With full log
`[call c1, out c1]` and candidate `[out c1]`, the enforcer re-inserts the
call before the output. -/
theorem enforce_pairing_amended_witness :
    ∃ c ∈ [callI "c1"], c.type = "computer_call" ∧ c.callId = (outI "c1").callId :=
  enforce_pairing_amended [callI "c1", outI "c1"] [outI "c1"]
    (by decide) (by decide) (by decide) [callI "c1"] (outI "c1") [] (by decide) (by decide)

/-- C6: when the send phase gives up (its 3-attempt structural-retry budget
is exhausted, or the error matches neither recoverable pattern),
`run_full_turn` returns the items accumulated so far in the turn instead of
propagating the exception. -/
theorem run_full_turn_returns_accumulated (cfg : TurnCfg) (fuel : Nat)
    (new_items : List Item) (apiIdx poll : Nat)
    (hcond : loopCond new_items = true)
    (hstop : cfg.stopAt poll = false)
    (hgive : sendLoop (cfg.input_items ++ new_items) cfg.oracle 4
      (enforce_cua_via_pairs (cfg.input_items ++ new_items)
        (compact_base (cfg.input_items ++ new_items) 1 30)) 0 apiIdx =
      SendOutcome.giveUp) :
    runLoop cfg (fuel + 1) new_items apiIdx poll = some ⟨new_items, []⟩ := by
  rw [runLoop, hgive]
  simp [hcond, hstop]

/-- C6 witness: a service that keeps answering with the missing-call
structural violation exhausts the retry budget (four calls) and the turn
returns the empty accumulation gracefully. -/
theorem run_full_turn_returns_accumulated_witness :
    runLoop
      { input_items := [],
        oracle := fun _ _ => Except.error
          (ApiMsg.missingCall "No tool call found for computer call with call_id cu_1"),
        stopAt := fun _ => false,
        fnStatus := fun _ => "success" } 1 [] 0 0 = some ⟨[], []⟩ :=
  run_full_turn_returns_accumulated _ 0 [] 0 0 (by decide) (by decide) (by decide)

/-- Helper: a successful send outcome carries a response the oracle actually
produced on some attempt. -/
theorem sendLoop_success_oracle (all : List Item)
    (oracle : Nat → List Item → Except ApiMsg (Option (List Item))) :
    ∀ (fuel : Nat) (next : List Item) (attempt apiIdx : Nat) (resp : Option (List Item))
      (idx2 : Nat),
      sendLoop all oracle fuel next attempt apiIdx = SendOutcome.success resp idx2 →
      ∃ k inp, oracle k inp = Except.ok resp := by
  intro fuel
  induction fuel with
  | zero => intro next attempt apiIdx resp idx2 h; exact absurd h (by simp [sendLoop])
  | succ fuel ih =>
    intro next attempt apiIdx resp idx2 h
    rw [sendLoop] at h
    split at h
    · rename_i r heq
      have hr : r = resp := ((SendOutcome.success.injEq _ _ _ _).mp h).1
      exact ⟨apiIdx, next, by rw [heq, hr]⟩
    · split at h
      · exact ih _ _ _ _ _ h
      · exact absurd h (by simp)
    · split at h
      · exact ih _ _ _ _ _ h
      · exact absurd h (by simp)
    · exact absurd h (by simp)

/-- Helper: the cons equation of `processBatch`. -/
theorem processBatch_cons (cfg : TurnCfg) (it : Item) (rest : List Item) (poll : Nat) :
    processBatch cfg (it :: rest) poll =
      if cfg.stopAt poll then ([], [], poll + 1)
      else
        ((handle_item_result cfg it ++ (processBatch cfg rest (poll + 1)).1),
          ((poll, it) :: (processBatch cfg rest (poll + 1)).2.1),
          (processBatch cfg rest (poll + 1)).2.2) := by
  rfl

/-- Helper: every dispatch recorded by the batch loop happened at a poll
where the stop flag was down. -/
theorem processBatch_stop (cfg : TurnCfg) :
    ∀ (out : List Item) (poll p : Nat) (it : Item),
      (p, it) ∈ (processBatch cfg out poll).2.1 → cfg.stopAt p = false := by
  intro out
  induction out with
  | nil => intro poll p it hm; exact absurd hm (List.not_mem_nil _)
  | cons a rest ih =>
    intro poll p it hm
    rw [processBatch_cons] at hm
    by_cases hstop : cfg.stopAt poll
    · rw [if_pos hstop] at hm
      exact absurd hm (List.not_mem_nil _)
    · rw [if_neg hstop] at hm
      rcases List.mem_cons.mp hm with h | h
      · have hp : p = poll := congrArg Prod.fst h
        rw [hp]
        exact Bool.eq_false_iff.mpr hstop
      · exact ih (poll + 1) p it h

/-- Helper: the handler results of every dispatched item are appended by the
batch loop. -/
theorem processBatch_handler_mem (cfg : TurnCfg) :
    ∀ (out : List Item) (poll p : Nat) (it x : Item),
      (p, it) ∈ (processBatch cfg out poll).2.1 → x ∈ handle_item_result cfg it →
      x ∈ (processBatch cfg out poll).1 := by
  intro out
  induction out with
  | nil => intro poll p it x hm _; exact absurd hm (List.not_mem_nil _)
  | cons a rest ih =>
    intro poll p it x hm hx
    rw [processBatch_cons] at hm ⊢
    by_cases hstop : cfg.stopAt poll
    · rw [if_pos hstop] at hm
      exact absurd hm (List.not_mem_nil _)
    · rw [if_neg hstop] at hm ⊢
      rcases List.mem_cons.mp hm with h | h
      · have hit : it = a := congrArg Prod.snd h
        exact List.mem_append_left _ (hit ▸ hx)
      · exact List.mem_append_right _ (ih (poll + 1) p it x h hx)

/-- Helper: everything the batch loop appends comes from the handler of some
dispatched item. -/
theorem processBatch_appended_from (cfg : TurnCfg) :
    ∀ (out : List Item) (poll : Nat) (x : Item),
      x ∈ (processBatch cfg out poll).1 →
      ∃ p it, (p, it) ∈ (processBatch cfg out poll).2.1 ∧ x ∈ handle_item_result cfg it := by
  intro out
  induction out with
  | nil => intro poll x hx; exact absurd hx (List.not_mem_nil _)
  | cons a rest ih =>
    intro poll x hx
    rw [processBatch_cons] at hx ⊢
    by_cases hstop : cfg.stopAt poll
    · rw [if_pos hstop] at hx
      exact absurd hx (List.not_mem_nil _)
    · rw [if_neg hstop] at hx ⊢
      rcases List.mem_append.mp hx with h | h
      · exact ⟨poll, a, List.mem_cons_self _ _, h⟩
      · rcases ih (poll + 1) x h with ⟨p, it, hm, hxh⟩
        exact ⟨p, it, List.mem_cons_of_mem _ hm, hxh⟩

/-- Helper: a dispatched `computer_call` produces an output with its id. -/
theorem handle_item_result_call (cfg : TurnCfg) (it : Item)
    (h : it.type = "computer_call") :
    ∃ o ∈ handle_item_result cfg it,
      o.type = "computer_call_output" ∧ o.callId = it.callId := by
  refine ⟨⟨"computer_call_output", none, it.callId, none, some "input_image", none, 0⟩,
    ?_, rfl, rfl⟩
  simp [handle_item_result, h]

/-- Helper: only a dispatched `computer_call` can produce a
`computer_call_output`, and then with its own id. -/
theorem handle_item_result_out (cfg : TurnCfg) (it x : Item)
    (hx : x ∈ handle_item_result cfg it) (hout : x.type = "computer_call_output") :
    it.type = "computer_call" ∧ x.callId = it.callId := by
  unfold handle_item_result at hx
  by_cases h1 : it.type = "message"
  · rw [if_pos h1] at hx
    exact absurd hx (List.not_mem_nil _)
  · rw [if_neg h1] at hx
    by_cases h2 : it.type = "function_call"
    · rw [if_pos h2] at hx
      have hxe := List.mem_singleton.mp hx
      rw [hxe] at hout
      exact absurd hout (by simp)
    · rw [if_neg h2] at hx
      by_cases h3 : it.type = "reasoning"
      · rw [if_pos h3] at hx
        exact absurd hx (List.not_mem_nil _)
      · rw [if_neg h3] at hx
        by_cases h4 : it.type = "computer_call"
        · rw [if_pos h4] at hx
          have hxe := List.mem_singleton.mp hx
          exact ⟨h4, by rw [hxe]⟩
        · rw [if_neg h4] at hx
          exact absurd hx (List.not_mem_nil _)

/-- Helper: the turn loop only appends to `new_items`. -/
theorem runLoop_extends (cfg : TurnCfg) :
    ∀ (fuel : Nat) (new_items : List Item) (apiIdx poll : Nat) (res : RunResult),
      runLoop cfg fuel new_items apiIdx poll = some res →
      ∃ t, res.new_items = new_items ++ t := by
  intro fuel
  induction fuel with
  | zero => intro new_items apiIdx poll res h; exact absurd h (by simp [runLoop])
  | succ fuel ih =>
    intro new_items apiIdx poll res h
    rw [runLoop] at h
    split at h
    · cases h; exact ⟨[], by simp⟩
    · split at h
      · cases h; exact ⟨[], by simp⟩
      · split at h
        · cases h; exact ⟨[], by simp⟩
        · cases h; exact ⟨[], by simp⟩
        · rename_i out apiIdx2 heq
          split at h
          · exact absurd h (by simp)
          · rename_i res2 hrec
            cases h
            rcases ih _ _ _ _ hrec with ⟨t, ht⟩
            exact ⟨out ++ (processBatch cfg out (poll + 1)).1 ++ t, by
              simp [ht, List.append_assoc]⟩

/-- Helper: the core safety facts of a completed turn: every dispatch
happened at a poll with the flag down, every dispatched `computer_call` has a
matching output in the final accumulation, and every `computer_call_output`
beyond the initial accumulation stems from a dispatched call. -/
theorem runLoop_core (cfg : TurnCfg)
    (horacle : ∀ (k : Nat) (inp out : List Item),
      cfg.oracle k inp = Except.ok (some out) → ∀ o ∈ out, ¬ o.type = "computer_call_output") :
    ∀ (fuel : Nat) (new_items : List Item) (apiIdx poll : Nat) (res : RunResult),
      runLoop cfg fuel new_items apiIdx poll = some res →
      ((∀ p it, (p, it) ∈ res.dispatched → cfg.stopAt p = false) ∧
       (∀ p it, (p, it) ∈ res.dispatched → it.type = "computer_call" →
         ∃ o ∈ res.new_items, o.type = "computer_call_output" ∧ o.callId = it.callId) ∧
       (∀ o ∈ res.new_items, o.type = "computer_call_output" →
         o ∈ new_items ∨ ∃ p c, (p, c) ∈ res.dispatched ∧ c.type = "computer_call" ∧
           o.callId = c.callId)) := by
  intro fuel
  induction fuel with
  | zero => intro new_items apiIdx poll res h; exact absurd h (by simp [runLoop])
  | succ fuel ih =>
    intro new_items apiIdx poll res h
    rw [runLoop] at h
    split at h
    · cases h
      exact ⟨fun p it hm => absurd hm (List.not_mem_nil _),
        fun p it hm => absurd hm (List.not_mem_nil _),
        fun o ho _ => Or.inl ho⟩
    · split at h
      · cases h
        exact ⟨fun p it hm => absurd hm (List.not_mem_nil _),
          fun p it hm => absurd hm (List.not_mem_nil _),
          fun o ho _ => Or.inl ho⟩
      · split at h
        · cases h
          exact ⟨fun p it hm => absurd hm (List.not_mem_nil _),
            fun p it hm => absurd hm (List.not_mem_nil _),
            fun o ho _ => Or.inl ho⟩
        · cases h
          exact ⟨fun p it hm => absurd hm (List.not_mem_nil _),
            fun p it hm => absurd hm (List.not_mem_nil _),
            fun o ho _ => Or.inl ho⟩
        · rename_i out apiIdx2 hsend
          split at h
          · exact absurd h (by simp)
          · rename_i res2 hrec
            cases h
            have hcore := ih _ _ _ _ hrec
            have hext := runLoop_extends cfg _ _ _ _ _ hrec
            rcases hext with ⟨t, ht⟩
            refine ⟨?_, ?_, ?_⟩
            · intro p it hm
              rcases List.mem_append.mp hm with hmb | hmr
              · exact processBatch_stop cfg out (poll + 1) p it hmb
              · exact hcore.1 p it hmr
            · intro p it hm hcall
              rcases List.mem_append.mp hm with hmb | hmr
              · rcases handle_item_result_call cfg it hcall with ⟨o, hoh, hop⟩
                have hob : o ∈ (processBatch cfg out (poll + 1)).1 :=
                  processBatch_handler_mem cfg out (poll + 1) p it o hmb hoh
                refine ⟨o, ?_, hop⟩
                rw [ht]
                exact List.mem_append_left _ (List.mem_append_right _ hob)
              · exact hcore.2.1 p it hmr hcall
            · intro o ho hout
              rcases hcore.2.2 o ho hout with hmem | ⟨p, c, hm, hcp⟩
              · rcases List.mem_append.mp hmem with hmem1 | hmem2
                · rcases List.mem_append.mp hmem1 with hmem3 | hmem4
                  · exact Or.inl hmem3
                  · exfalso
                    rcases sendLoop_success_oracle _ _ _ _ _ _ _ _ hsend with ⟨k, inp, hok⟩
                    exact horacle k inp out hok o hmem4 hout
                · rcases processBatch_appended_from cfg out (poll + 1) o hmem2 with
                    ⟨p, it, hmb, hoh⟩
                  have hio := handle_item_result_out cfg it o hoh hout
                  exact Or.inr ⟨p, it, List.mem_append_left _ hmb, hio.1, hio.2⟩
              · exact Or.inr ⟨p, c, List.mem_append_right _ hm, hcp⟩

/-- C7: cooperative cancellation.  With a monotone stop flag (once set it
stays set) and a service that never returns `computer_call_output` items
itself, every completed turn satisfies: (1) every item was dispatched at a
poll where the flag was down; (2) once the flag is up at poll `k`, nothing is
dispatched at any poll from `k` on; (3) every dispatched `computer_call`'s
output is in the final accumulation; (4) every `computer_call_output` beyond
the initial accumulation belongs to a dispatched call — so a call whose
dispatch was cut off by the flag never gets an output appended. -/
theorem run_full_turn_stop_semantics (cfg : TurnCfg)
    (hmono : ∀ i j : Nat, i ≤ j → cfg.stopAt i = true → cfg.stopAt j = true)
    (horacle : ∀ (k : Nat) (inp out : List Item),
      cfg.oracle k inp = Except.ok (some out) → ∀ o ∈ out, ¬ o.type = "computer_call_output")
    (fuel : Nat) (new_items : List Item) (apiIdx poll : Nat) (res : RunResult)
    (hrun : runLoop cfg fuel new_items apiIdx poll = some res) :
    (∀ p it, (p, it) ∈ res.dispatched → cfg.stopAt p = false) ∧
    (∀ k : Nat, cfg.stopAt k = true → ∀ p it, (p, it) ∈ res.dispatched → p < k) ∧
    (∀ p it, (p, it) ∈ res.dispatched → it.type = "computer_call" →
      ∃ o ∈ res.new_items, o.type = "computer_call_output" ∧ o.callId = it.callId) ∧
    (∀ o ∈ res.new_items, o.type = "computer_call_output" →
      o ∈ new_items ∨ ∃ p c, (p, c) ∈ res.dispatched ∧ c.type = "computer_call" ∧
        o.callId = c.callId) := by
  have hcore := runLoop_core cfg horacle fuel new_items apiIdx poll res hrun
  refine ⟨hcore.1, ?_, hcore.2.1, hcore.2.2⟩
  intro k hk p it hm
  by_contra hnp
  have hkp : k ≤ p := Nat.le_of_not_lt hnp
  have := hmono k p hkp hk
  rw [hcore.1 p it hm] at this
  exact absurd this (by simp)

/-- C7 witness: one batch of two queued calls; the flag rises between them.
The first call's output is appended, the second call is not dispatched, no
output for it ever appears, and the loop returns. -/
theorem run_full_turn_stop_semantics_witness :
    (∀ p it,
        (p, it) ∈ [((1 : Nat), callI "c1")] →
        ({ input_items := [],
           oracle := fun k _ =>
             if k = 0 then Except.ok (some [callI "c1", callI "c2"])
             else Except.error (ApiMsg.other "done"),
           stopAt := fun p => decide (2 ≤ p),
           fnStatus := fun _ => "success" } : TurnCfg).stopAt p = false) ∧
    (∀ k : Nat,
        ({ input_items := [],
           oracle := fun k2 _ =>
             if k2 = 0 then Except.ok (some [callI "c1", callI "c2"])
             else Except.error (ApiMsg.other "done"),
           stopAt := fun p => decide (2 ≤ p),
           fnStatus := fun _ => "success" } : TurnCfg).stopAt k = true →
        ∀ p it, (p, it) ∈ [((1 : Nat), callI "c1")] → p < k) ∧
    (∀ p it, (p, it) ∈ [((1 : Nat), callI "c1")] → it.type = "computer_call" →
      ∃ o ∈ [callI "c1", callI "c2", outImg "c1"],
        o.type = "computer_call_output" ∧ o.callId = it.callId) ∧
    (∀ o ∈ [callI "c1", callI "c2", outImg "c1"], o.type = "computer_call_output" →
      o ∈ ([] : List Item) ∨ ∃ p c, (p, c) ∈ [((1 : Nat), callI "c1")] ∧
        c.type = "computer_call" ∧ o.callId = c.callId) := by
  have h := run_full_turn_stop_semantics
    { input_items := [],
      oracle := fun k _ =>
        if k = 0 then Except.ok (some [callI "c1", callI "c2"])
        else Except.error (ApiMsg.other "done"),
      stopAt := fun p => decide (2 ≤ p),
      fnStatus := fun _ => "success" }
    (fun i j hij hi => by
      simp only [decide_eq_true_eq] at hi ⊢
      omega)
    (fun k inp out hok o ho => by
      replace hok : (if k = 0 then Except.ok (some [callI "c1", callI "c2"])
          else Except.error (ApiMsg.other "done")) = Except.ok (some out) := hok
      by_cases hk : k = 0
      · rw [if_pos hk] at hok
        injection hok with h1
        injection h1 with h2
        rw [← h2] at ho
        rcases List.mem_cons.mp ho with he | he
        · rw [he]; decide
        · rcases List.mem_cons.mp he with he2 | he2
          · rw [he2]; decide
          · exact absurd he2 (List.not_mem_nil o)
      · rw [if_neg hk] at hok
        exact absurd hok (by simp))
    2 [] 0 0 ⟨[callI "c1", callI "c2", outImg "c1"], [(1, callI "c1")]⟩ (by decide)
  exact h
